import Mathlib

/-!
Verification of the spaced-repetition core of the `vocab-cards` application
(`src/App.jsx`) against its natural-language specification.

Modelling conventions (shallow embedding of the JavaScript source):
* JS numbers are modelled as rationals (`ℚ`); `Math.ceil` is `Int.ceil`
  cast back to `ℚ`; `Math.max` is `max`.
* Card text fields are JS strings, modelled as `List Char` (`Str`) so that
  splitting, joining and trimming can be reasoned about structurally.
* A possibly-absent `due` field (`c.due ?? 0` in the source) is an
  `Option ℚ`, `none` standing for `undefined`/`null`.
* A rating is the raw string the UI passes to `updateCard`.
* The dictionary fetch is fallible I/O; its outcome is an explicit
  `Option` argument, `none` standing for any thrown/rejected path
  (network error, non-2xx response, JSON parse failure).
-/

namespace VocabCards

/-- JS strings, modelled as lists of characters. -/
abbrev Str := List Char

/-- A string literal, as a `Str`. -/
def str (s : String) : Str := s.toList

/-- `a || b` on JS strings: an empty (falsy) string falls through to `b`.
A missing key reads as `""`, which is falsy exactly like `undefined`, so
the same operator also models `undefined || b`. -/
def jsOr (a b : Str) : Str := if a = [] then b else a

/-- JS `String.prototype.trim`: drop whitespace from both ends. -/
def trimStr (s : Str) : Str :=
  ((s.dropWhile Char.isWhitespace).reverse.dropWhile Char.isWhitespace).reverse

/-- One flashcard, as built and consumed by `App.jsx`. -/
structure Card where
  id : Str
  word : Str
  ipa : Str
  audio : Str
  meaning : Str
  «example» : Str
  ease : ℚ
  interval : ℚ
  due : Option ℚ
  deriving Repr, DecidableEq

/-- `updateCard` (App.jsx lines 227-242): the rating transition.  The
rating is the raw string; anything outside `again`/`hard`/`good` falls
through all three branches, leaving `ease` and `interval` untouched, but
`due` is still recomputed from the (unchanged) interval before the spread. -/
def updateCard (card : Card) (rating : String) (now : ℚ) : Card :=
  let ease := card.ease
  let interval := card.interval
  let p : ℚ × ℚ :=
    if rating = "again" then
      (max (ease - 0.2) 1.3, 1)
    else if rating = "hard" then
      (ease + 0.05, max 1 ((⌈interval * 1.2⌉ : ℤ) : ℚ))
    else if rating = "good" then
      let ease := ease + 0.1
      (ease, if 0 < interval then ((⌈interval * ease⌉ : ℤ) : ℚ) else 2)
    else
      (ease, interval)
  let ease := p.1
  let interval := p.2
  let due := now + interval * (24 * 60 * 60 * 1000)
  { card with ease := ease, interval := interval, due := some due }

/-- Unfolding `updateCard` on the `again` branch. -/
theorem updateCard_again (c : Card) (now : ℚ) :
    updateCard c "again" now =
      { c with ease := max (c.ease - 0.2) 1.3, interval := 1,
               due := some (now + 1 * (24 * 60 * 60 * 1000)) } := rfl

/-- Unfolding `updateCard` on the `hard` branch. -/
theorem updateCard_hard (c : Card) (now : ℚ) :
    updateCard c "hard" now =
      { c with ease := c.ease + 0.05,
               interval := max 1 ((⌈c.interval * 1.2⌉ : ℤ) : ℚ),
               due := some (now + max 1 ((⌈c.interval * 1.2⌉ : ℤ) : ℚ) *
                 (24 * 60 * 60 * 1000)) } := rfl

/-- Unfolding `updateCard` on the `good` branch. -/
theorem updateCard_good (c : Card) (now : ℚ) :
    updateCard c "good" now =
      { c with ease := c.ease + 0.1,
               interval := if 0 < c.interval
                 then ((⌈c.interval * (c.ease + 0.1)⌉ : ℤ) : ℚ) else 2,
               due := some (now +
                 (if 0 < c.interval
                   then ((⌈c.interval * (c.ease + 0.1)⌉ : ℤ) : ℚ) else 2) *
                 (24 * 60 * 60 * 1000)) } := rfl

/-- Unfolding `updateCard` on any unrecognised rating. -/
theorem updateCard_other (c : Card) (r : String) (now : ℚ)
    (h1 : r ≠ "again") (h2 : r ≠ "hard") (h3 : r ≠ "good") :
    updateCard c r now =
      { c with due := some (now + c.interval * (24 * 60 * 60 * 1000)) } := by
  unfold updateCard
  simp only [if_neg h1, if_neg h2, if_neg h3]

/-- A concrete well-formed card used to witness hypotheses at concrete inputs. -/
def sampleCard : Card :=
  { id := str "c1", word := str "cat", ipa := [], audio := [], meaning := [],
    «example» := [], ease := 2.5, interval := 0, due := some 5 }

/-- C1: for every card and every rating among `again`, `hard`, `good`,
`updateCard` realises exactly the spec's transition table — `again`:
`ease' = max(ease - 0.2, 1.3)`, `interval' = 1`; `hard`: `ease' = ease + 0.05`,
`interval' = max(1, ceil(interval * 1.2))`; `good`: `ease' = ease + 0.1`,
`interval' = interval > 0 ? ceil(interval * ease') : 2`; and in every case
`due' = now + interval' * 86,400,000` milliseconds. -/
theorem updateCard_transition_table (c : Card) (now : ℚ) :
    (updateCard c "again" now).ease = max (c.ease - 0.2) 1.3 ∧
    (updateCard c "again" now).interval = 1 ∧
    (updateCard c "hard" now).ease = c.ease + 0.05 ∧
    (updateCard c "hard" now).interval = max 1 ((⌈c.interval * 1.2⌉ : ℤ) : ℚ) ∧
    (updateCard c "good" now).ease = c.ease + 0.1 ∧
    (updateCard c "good" now).interval =
      (if 0 < c.interval then ((⌈c.interval * (c.ease + 0.1)⌉ : ℤ) : ℚ) else 2) ∧
    (∀ r : String, r = "again" ∨ r = "hard" ∨ r = "good" →
      (updateCard c r now).due =
        some (now + (updateCard c r now).interval * 86400000)) := by
  refine ⟨rfl, rfl, rfl, rfl, rfl, rfl, ?_⟩
  rintro r (rfl | rfl | rfl) <;> norm_num [updateCard_again, updateCard_hard, updateCard_good]

/-- C2 counterexample: on a rating outside the three known ones the code is
*not* a field-for-field no-op — `due` is recomputed from `now` and the old
interval, so a card whose `due` differs from that value changes. -/
theorem updateCard_invalid_rating_changes_card :
    updateCard sampleCard "unknown" 0 ≠ sampleCard := by
  intro h
  have hdue := congrArg Card.due h
  rw [updateCard_other sampleCard "unknown" 0 (by decide) (by decide) (by decide)]
    at hdue
  norm_num [sampleCard] at hdue

/-- C2 (amended): on a rating outside `{again, hard, good}`, `updateCard`
leaves `ease`, `interval` and every content field unchanged, but still
recomputes `due = now + interval * 86,400,000` from the unchanged interval;
the result is the input card only up to that refreshed `due`. -/
theorem updateCard_invalid_rating_amended (c : Card) (r : String) (now : ℚ)
    (h1 : r ≠ "again") (h2 : r ≠ "hard") (h3 : r ≠ "good") :
    updateCard c r now =
      { c with due := some (now + c.interval * 86400000) } := by
  rw [updateCard_other c r now h1 h2 h3]
  norm_num

/-- C2 witness: the amended no-op-except-due behaviour at a concrete card
and the concrete unknown rating string. -/
theorem updateCard_invalid_rating_amended_witness :
    updateCard sampleCard "unknown" 0 =
      { sampleCard with due := some (0 + sampleCard.interval * 86400000) } :=
  updateCard_invalid_rating_amended sampleCard "unknown" 0
    (by decide) (by decide) (by decide)

/-- C3: every rating among `again`, `hard`, `good` preserves the invariant
`ease ≥ 1.3` (given a valid card with `ease ≥ 1.3` and `interval ≥ 0`). -/
theorem updateCard_ease_lower_bound (c : Card) (r : String) (now : ℚ)
    (hease : (1.3 : ℚ) ≤ c.ease) (hint : (0 : ℚ) ≤ c.interval)
    (hr : r = "again" ∨ r = "hard" ∨ r = "good") :
    (1.3 : ℚ) ≤ (updateCard c r now).ease := by
  rcases hr with rfl | rfl | rfl
  · rw [updateCard_again]
    exact le_max_right _ _
  · rw [updateCard_hard]
    dsimp only
    linarith
  · rw [updateCard_good]
    dsimp only
    linarith

/-- C3 witness: the ease lower bound at a concrete valid card and rating. -/
theorem updateCard_ease_lower_bound_witness :
    (1.3 : ℚ) ≤ (updateCard sampleCard "good" 0).ease :=
  updateCard_ease_lower_bound sampleCard "good" 0 (by norm_num [sampleCard])
    (by norm_num [sampleCard]) (Or.inr (Or.inr rfl))

/-- C5: the rating transition never touches the content fields — `id`,
`word`, `ipa`, `audio`, `meaning`, `example` come through unchanged for
every rating among `again`, `hard`, `good`. -/
theorem updateCard_frame (c : Card) (r : String) (now : ℚ)
    (hr : r = "again" ∨ r = "hard" ∨ r = "good") :
    (updateCard c r now).id = c.id ∧
    (updateCard c r now).word = c.word ∧
    (updateCard c r now).ipa = c.ipa ∧
    (updateCard c r now).audio = c.audio ∧
    (updateCard c r now).meaning = c.meaning ∧
    (updateCard c r now).«example» = c.«example» :=
  ⟨rfl, rfl, rfl, rfl, rfl, rfl⟩

/-- C5 witness: the frame condition at a concrete card and rating. -/
theorem updateCard_frame_witness :
    (updateCard sampleCard "again" 0).id = sampleCard.id ∧
    (updateCard sampleCard "again" 0).word = sampleCard.word ∧
    (updateCard sampleCard "again" 0).ipa = sampleCard.ipa ∧
    (updateCard sampleCard "again" 0).audio = sampleCard.audio ∧
    (updateCard sampleCard "again" 0).meaning = sampleCard.meaning ∧
    (updateCard sampleCard "again" 0).«example» = sampleCard.«example» :=
  updateCard_frame sampleCard "again" 0 (Or.inl rfl)

/-- The due test from `pickNextCard` (App.jsx line 153): a card is due iff
`(c.due ?? 0) <= now` — a missing `due` is coerced to `0`. -/
def isDue (c : Card) (now : ℚ) : Bool := decide (c.due.getD 0 ≤ now)

/-- `pickNextCard` (App.jsx lines 151-160), as the pure selection it
performs: filter the due cards in collection order and take the first
(`dueCards[0]`), `none` when no card is due. -/
def pickNextCard (allCards : List Card) (now : ℚ) : Option Card :=
  (allCards.filter (fun c => isDue c now)).head?

theorem pickNextCard_nil (now : ℚ) : pickNextCard [] now = none := rfl

theorem pickNextCard_cons (c : Card) (rest : List Card) (now : ℚ) :
    pickNextCard (c :: rest) now =
      if isDue c now then some c else pickNextCard rest now := by
  by_cases h : isDue c now <;> simp [pickNextCard, List.filter_cons, h]

/-- Helper: `pickNextCard` is empty exactly when no card in the
collection passes the due test. -/
theorem pickNextCard_none_iff (cards : List Card) (now : ℚ) :
    pickNextCard cards now = none ↔ ∀ c ∈ cards, isDue c now = false := by
  induction cards with
  | nil => simp [pickNextCard_nil]
  | cons a rest ih =>
    rw [pickNextCard_cons]
    by_cases ha : isDue a now
    · rw [if_pos ha]
      simp [ha]
    · rw [if_neg ha, ih]
      constructor
      · intro h c hc
        rcases List.mem_cons.mp hc with rfl | hc
        · exact Bool.not_eq_true _ ▸ ha
        · exact h c hc
      · intro h c hc
        exact h c (List.mem_cons_of_mem a hc)

/-- Helper: a card returned by `pickNextCard` is due, and every card
inserted before it in the collection is not due. -/
theorem pickNextCard_some_first (cards : List Card) (now : ℚ) (c : Card)
    (hc : pickNextCard cards now = some c) :
    isDue c now = true ∧
    ∃ pre post, cards = pre ++ c :: post ∧ ∀ x ∈ pre, isDue x now = false := by
  induction cards with
  | nil => simp [pickNextCard_nil] at hc
  | cons a rest ih =>
    rw [pickNextCard_cons] at hc
    by_cases ha : isDue a now
    · rw [if_pos ha] at hc
      cases hc
      exact ⟨ha, [], rest, rfl, by simp⟩
    · rw [if_neg ha] at hc
      obtain ⟨hdue, pre, post, hsplit, hpre⟩ := ih hc
      refine ⟨hdue, a :: pre, post, by rw [hsplit]; rfl, ?_⟩
      intro x hx
      rcases List.mem_cons.mp hx with rfl | hx
      · exact Bool.not_eq_true _ ▸ ha
      · exact hpre x hx

/-- C4: `pickNextCard` returns the earliest-inserted due card — the
returned card is due and every card inserted before it is not due — and
returns `none` exactly when no card of the collection is due. -/
theorem pickNextCard_spec (cards : List Card) (now : ℚ) :
    (∀ c, pickNextCard cards now = some c →
      isDue c now = true ∧
      ∃ pre post, cards = pre ++ c :: post ∧ ∀ x ∈ pre, isDue x now = false) ∧
    (pickNextCard cards now = none ↔ ∀ c ∈ cards, isDue c now = false) :=
  ⟨fun c hc => pickNextCard_some_first cards now c hc,
   pickNextCard_none_iff cards now⟩

/-- A card whose `due` field is absent (`undefined`/`null` in the source). -/
def noDueCard : Card :=
  { id := str "c2", word := str "dog", ipa := [], audio := [], meaning := [],
    «example» := [], ease := 2.5, interval := 0, due := none }

/-- C10: a card with an absent `due` is treated as due at every timestamp
`now ≥ 0` — the missing value is coerced to `0` before the `due <= now`
comparison — so such a card is always in the due set `pickNextCard`
selects from, and the selection cannot come back empty. -/
theorem pickNextCard_missing_due (cards : List Card) (now : ℚ) (c : Card)
    (hnow : (0 : ℚ) ≤ now) (hc : c ∈ cards) (hdue : c.due = none) :
    isDue c now = true ∧
    c ∈ cards.filter (fun x => isDue x now) ∧
    pickNextCard cards now ≠ none := by
  have hisdue : isDue c now = true := by
    simp [isDue, hdue, hnow]
  refine ⟨hisdue, List.mem_filter.mpr ⟨hc, hisdue⟩, ?_⟩
  intro hnone
  have := (pickNextCard_none_iff cards now).mp hnone c hc
  rw [hisdue] at this
  exact Bool.true_eq_false ▸ this

/-- C10 witness: the missing-`due` eligibility at a concrete collection. -/
theorem pickNextCard_missing_due_witness :
    isDue noDueCard 0 = true ∧
    noDueCard ∈ [noDueCard].filter (fun x => isDue x 0) ∧
    pickNextCard [noDueCard] 0 ≠ none :=
  pickNextCard_missing_due [noDueCard] 0 noDueCard le_rfl (by simp) rfl

/-- A raw imported row: a string-keyed mapping, as produced by `parseCSV`
or by `JSON.parse` on an array of objects.  A later binding shadows an
earlier one, as a later assignment to a JS object key would. -/
abbrev Row := List (Str × Str)

/-- Property access `entry[k]` on a raw row, reading `""` for a missing
key (both read as falsy by the `||` chains of the source). -/
def rowGet (r : Row) (k : Str) : Str :=
  (((r.reverse.find? fun p => decide (p.1 = k)).map Prod.snd).getD [])

/-- JS `text.split(sep)` for a one-character separator: split into the
(always nonempty) list of chunks between occurrences of `sep`. -/
def splitOnChar (sep : Char) : Str → List Str
  | [] => [[]]
  | c :: cs =>
    match splitOnChar sep cs with
    | [] => [[]]
    | h :: t => if c = sep then [] :: h :: t else (c :: h) :: t

/-- JS `array.join(sep)` for a one-character separator. -/
def joinSep (sep : Char) : List Str → Str
  | [] => []
  | [s] => s
  | s :: ss => s ++ sep :: joinSep sep ss

/-- Drop a trailing carriage return, so that splitting on `'\n'` and then
stripping matches the source's `split(/\r?\n/)`. -/
def stripCR (l : Str) : Str :=
  if l.getLast? = some '\r' then l.dropLast else l

/-- The line split `text.split(/\r?\n/)` of `parseCSV`. -/
def splitLines (text : Str) : List Str :=
  (splitOnChar '\n' text).map stripCR

/-- `parseCSV` (App.jsx lines 12-24): first line is the header (names
trimmed); each later line is split positionally on commas against the
header, missing trailing values read as `""`, every value trimmed. -/
def parseCSV (text : Str) : List Row :=
  match splitLines (trimStr text) with
  | [] => []
  | header :: rest =>
    let headers := (splitOnChar ',' header).map trimStr
    rest.map fun line =>
      let values := splitOnChar ',' line
      headers.enum.map fun p => (p.2, trimStr (values.getD p.1 []))

/-- The result shape of the dictionary lookup: `{ipa, audio, meaning}`,
each defaulting to the empty string. -/
structure DictResult where
  ipa : Str
  audio : Str
  meaning : Str
  deriving Repr, DecidableEq

/-- One element of a `phonetics` array; `[]` models a missing or empty
(falsy) `text`/`audio` member. -/
structure Phonetic where
  text : Str
  audio : Str
  deriving Repr, DecidableEq

/-- One element of a `meanings` array; a `[]` definition models a missing
or empty (falsy) `definition` member. -/
structure DictMeaning where
  definitions : List Str
  deriving Repr, DecidableEq

/-- One entry of the dictionary response body. -/
structure DictEntry where
  phonetics : List Phonetic
  meanings : List DictMeaning
  deriving Repr, DecidableEq

/-- The response-processing half of `fetchDictionary` (App.jsx lines
43-61): `data[0] || {}`, first phonetic with a text wins for `ipa`, first
phonetic with an audio wins for `audio`, first definition of the first
meaning wins for `meaning`. -/
def processDictData (data : List DictEntry) : DictResult :=
  match data with
  | [] => ⟨[], [], []⟩
  | entry :: _ =>
    let ipa := match entry.phonetics.find? fun p => decide (p.text ≠ []) with
      | some p => p.text
      | none => []
    let audio := match entry.phonetics.find? fun p => decide (p.audio ≠ []) with
      | some p => p.audio
      | none => []
    let meaning := match entry.meanings with
      | [] => []
      | m :: _ =>
        match m.definitions with
        | [] => []
        | d :: _ => if d = [] then [] else d
    ⟨ipa, audio, meaning⟩

/-- `fetchDictionary` (App.jsx lines 35-66): the fallible I/O outcome is
the `Option` argument — `none` models any thrown path (network failure,
non-2xx response via the explicit `throw`, JSON parse failure), caught by
the surrounding `try`/`catch` and resolved to the all-empty result. -/
def fetchDictionary (resp : Option (List DictEntry)) : DictResult :=
  match resp with
  | none => ⟨[], [], []⟩
  | some data => processDictData data

/-- The merge step of `handleFileImport` (App.jsx lines 206-208): each of
`ipa`, `audio`, `meaning` keeps the imported value when non-empty and
takes the fetched one otherwise (`card.ipa = card.ipa || fetched.ipa`). -/
def fillMissing (card : Card) (fetched : DictResult) : Card :=
  { card with
      ipa := jsOr card.ipa fetched.ipa,
      audio := jsOr card.audio fetched.audio,
      meaning := jsOr card.meaning fetched.meaning }

/-- The word resolution of `handleFileImport` (App.jsx lines 189-190):
`(entry.word || entry.Word || entry.term || entry.Term || '').toString().trim()`. -/
def resolveWord (entry : Row) : Str :=
  trimStr (jsOr (rowGet entry (str "word")) (jsOr (rowGet entry (str "Word"))
    (jsOr (rowGet entry (str "term")) (rowGet entry (str "Term")))))

/-- The card literal of `handleFileImport` (App.jsx lines 192-202): the
resolved word, the case-variant fallbacks for the optional fields, and
the default scheduling state. -/
def baseCard (entry : Row) (i : Str) (now : ℚ) : Card :=
  { id := i, word := resolveWord entry,
    ipa := jsOr (rowGet entry (str "ipa")) (rowGet entry (str "IPA")),
    audio := jsOr (rowGet entry (str "audio")) (rowGet entry (str "Audio")),
    meaning := jsOr (rowGet entry (str "meaning")) (rowGet entry (str "Meaning")),
    «example» := jsOr (rowGet entry (str "example")) (rowGet entry (str "Example")),
    ease := 2.5, interval := 0, due := some now }

/-- One kept row of `handleFileImport` (App.jsx lines 192-209): the card
literal, enriched by the dictionary lookup when `autoComplete` is on and
one of `ipa`, `meaning`, `audio` is missing. -/
def importedCard (entry : Row) (i : Str) (now : ℚ) (autoComplete : Bool)
    (lookup : Str → DictResult) : Card :=
  let card := baseCard entry i now
  if autoComplete ∧ (card.ipa = [] ∨ card.meaning = [] ∨ card.audio = [])
  then fillMissing card (lookup card.word)
  else card

/-- The row loop of `handleFileImport` (App.jsx lines 187-211).  `idGen n`
stands for the `id` the n-th created card receives (the source draws it
from `Date.now()` and `Math.random()`); `lookup` is the injected
dictionary lookup. -/
def importRows (rows : List Row) (idGen : Nat → Str) (n : Nat) (now : ℚ)
    (autoComplete : Bool) (lookup : Str → DictResult) : List Card :=
  match rows with
  | [] => []
  | entry :: rest =>
    if resolveWord entry = [] then importRows rest idGen n now autoComplete lookup
    else importedCard entry (idGen n) now autoComplete lookup ::
      importRows rest idGen (n + 1) now autoComplete lookup

/-- A parsed JSON value, as far as the import cares: `JSON.parse`
succeeded and gave an array of objects, or it gave anything else. -/
inductive JsonData where
  | arr (rows : List Row)
  | nonArray
  deriving Repr

/-- The fallible front half of `handleFileImport` (App.jsx lines 171-186):
reading the file can reject, and `JSON.parse` can throw (`none`). -/
inductive FileInput where
  | unreadable
  | jsonFile (parsed : Option JsonData)
  | csvFile (text : Str)
  deriving Repr

/-- The `try`/`catch` of `handleFileImport`: the rows to import, or `none`
when the handler returns early from the `catch`.  A JSON file whose value
is not an array leaves `importedRows` at its initial `[]`. -/
def readRows : FileInput → Option (List Row)
  | .unreadable => none
  | .jsonFile none => none
  | .jsonFile (some .nonArray) => some []
  | .jsonFile (some (.arr rows)) => some rows
  | .csvFile text => some (parseCSV text)

/-- `handleFileImport` (App.jsx lines 171-215) as a function on the cards
state: on a read/parse failure the handler returns with the collection
untouched; otherwise the new cards are appended to the existing list. -/
def handleFileImport (file : FileInput) (prev : List Card) (idGen : Nat → Str)
    (now : ℚ) (autoComplete : Bool) (lookup : Str → DictResult) : List Card :=
  match readRows file with
  | none => prev
  | some rows => prev ++ importRows rows idGen 0 now autoComplete lookup

/-- The export header of `exportCSV` (App.jsx lines 265-274). -/
def csvHeaders : List Str :=
  [str "word", str "ipa", str "audio", str "meaning", str "example",
   str "ease", str "interval", str "due"]

/-- The dynamic field access `c[h] ?? ''` of `exportCSV`; `showNum` stands
for JS number-to-string coercion inside `join`. -/
def cardField (showNum : ℚ → Str) (c : Card) (h : Str) : Str :=
  if h = str "word" then c.word
  else if h = str "ipa" then c.ipa
  else if h = str "audio" then c.audio
  else if h = str "meaning" then c.meaning
  else if h = str "example" then c.«example»
  else if h = str "ease" then showNum c.ease
  else if h = str "interval" then showNum c.interval
  else if h = str "due" then (c.due.map showNum).getD []
  else []

/-- `exportCSV` (App.jsx lines 264-277): the header line followed by one
comma-joined line per card, all joined with newlines. -/
def exportCSV (showNum : ℚ → Str) (cards : List Card) : Str :=
  let rows := cards.map fun c =>
    joinSep ',' (csvHeaders.map (cardField showNum c))
  joinSep '\n' (joinSep ',' csvHeaders :: rows)

theorem jsOr_of_ne (a b : Str) (h : a ≠ []) : jsOr a b = a := if_neg h

theorem jsOr_nil_right (a : Str) : jsOr a [] = a := by
  unfold jsOr
  split
  · simp_all
  · rfl

/-- A complete card (no empty enrichable field) is untouched by the merge. -/
theorem fillMissing_of_complete (c : Card) (f : DictResult)
    (h : ¬(c.ipa = [] ∨ c.meaning = [] ∨ c.audio = [])) : fillMissing c f = c := by
  push_neg at h
  obtain ⟨h1, h2, h3⟩ := h
  unfold fillMissing
  rw [jsOr_of_ne _ _ h1, jsOr_of_ne _ _ h3, jsOr_of_ne _ _ h2]

theorem fillMissing_word (c : Card) (f : DictResult) :
    (fillMissing c f).word = c.word := rfl

theorem importedCard_false (entry : Row) (i : Str) (now : ℚ)
    (lk : Str → DictResult) :
    importedCard entry i now false lk = baseCard entry i now := by
  simp [importedCard]

theorem importedCard_word (entry : Row) (i : Str) (now : ℚ) (ac : Bool)
    (lk : Str → DictResult) :
    (importedCard entry i now ac lk).word = resolveWord entry := by
  unfold importedCard
  dsimp only
  split <;> rfl

theorem importedCard_id (entry : Row) (i : Str) (now : ℚ) (ac : Bool)
    (lk : Str → DictResult) : (importedCard entry i now ac lk).id = i := by
  unfold importedCard
  dsimp only
  split <;> rfl

theorem importedCard_defaults (entry : Row) (i : Str) (now : ℚ) (ac : Bool)
    (lk : Str → DictResult) :
    (importedCard entry i now ac lk).ease = 2.5 ∧
    (importedCard entry i now ac lk).interval = 0 ∧
    (importedCard entry i now ac lk).due = some now := by
  unfold importedCard
  dsimp only
  split <;> exact ⟨rfl, rfl, rfl⟩

/-- With auto-complete on, the import is the plain import with the
dictionary merge applied to every produced card. -/
theorem importRows_autoComplete_eq (rows : List Row) (idGen : Nat → Str)
    (n : Nat) (now : ℚ) (lk : Str → DictResult) :
    importRows rows idGen n now true lk =
      (importRows rows idGen n now false lk).map
        (fun c => fillMissing c (lk c.word)) := by
  induction rows generalizing n with
  | nil => rfl
  | cons entry rest ih =>
    simp only [importRows]
    by_cases hw : resolveWord entry = []
    · rw [if_pos hw, if_pos hw]
      exact ih n
    · rw [if_neg hw, if_neg hw]
      simp only [List.map_cons]
      congr 1
      · rw [importedCard_false]
        unfold importedCard
        simp only [true_and]
        split
        · rfl
        · next hP => exact (fillMissing_of_complete _ _ hP).symm
      · exact ih (n + 1)

/-- C8: the dictionary lookup never propagates a failure — any failed
fetch/parse (`none`) and an empty response body both resolve to the
all-empty result — and the import-time merge only fills fields that are
empty on the imported card: a non-empty imported `ipa`/`audio`/`meaning`
is never overwritten, the other fields are untouched, and the
auto-complete import is exactly the plain import followed by the merge. -/
theorem fetchDictionary_never_raises_and_fills_only_missing :
    fetchDictionary none = ⟨[], [], []⟩ ∧
    fetchDictionary (some []) = ⟨[], [], []⟩ ∧
    (∀ (c : Card) (f : DictResult),
      (c.ipa ≠ [] → (fillMissing c f).ipa = c.ipa) ∧
      (c.audio ≠ [] → (fillMissing c f).audio = c.audio) ∧
      (c.meaning ≠ [] → (fillMissing c f).meaning = c.meaning) ∧
      (c.ipa = [] → (fillMissing c f).ipa = f.ipa) ∧
      (c.audio = [] → (fillMissing c f).audio = f.audio) ∧
      (c.meaning = [] → (fillMissing c f).meaning = f.meaning) ∧
      (fillMissing c f).id = c.id ∧ (fillMissing c f).word = c.word ∧
      (fillMissing c f).«example» = c.«example» ∧
      (fillMissing c f).ease = c.ease ∧
      (fillMissing c f).interval = c.interval ∧
      (fillMissing c f).due = c.due) ∧
    (∀ (rows : List Row) (idGen : Nat → Str) (n : Nat) (now : ℚ)
      (lk : Str → DictResult),
      importRows rows idGen n now true lk =
        (importRows rows idGen n now false lk).map
          (fun c => fillMissing c (lk c.word))) := by
  refine ⟨rfl, rfl, fun c f => ?_, importRows_autoComplete_eq⟩
  refine ⟨fun h => jsOr_of_ne _ _ h, fun h => jsOr_of_ne _ _ h,
    fun h => jsOr_of_ne _ _ h, fun h => by simp [fillMissing, jsOr, h],
    fun h => by simp [fillMissing, jsOr, h], fun h => by simp [fillMissing, jsOr, h],
    rfl, rfl, rfl, rfl, rfl, rfl⟩

/-- C9: a malformed import file — the file text cannot be read, or its
JSON content is unparsable — makes the handler return from its `catch`
before touching the collection, which is left exactly as it was.  The
model is a total function, mirroring that the caught error is not fatal. -/
theorem handleFileImport_malformed (prev : List Card) (idGen : Nat → Str)
    (now : ℚ) (ac : Bool) (lk : Str → DictResult) :
    handleFileImport .unreadable prev idGen now ac lk = prev ∧
    handleFileImport (.jsonFile none) prev idGen now ac lk = prev :=
  ⟨rfl, rfl⟩

/-- The words of the imported cards are exactly the non-empty resolved
words of the rows, in order. -/
theorem importRows_words (rows : List Row) (idGen : Nat → Str) (n : Nat)
    (now : ℚ) (ac : Bool) (lk : Str → DictResult) :
    (importRows rows idGen n now ac lk).map Card.word
      = (rows.map resolveWord).filter (fun w => decide (w ≠ [])) := by
  induction rows generalizing n with
  | nil => rfl
  | cons entry rest ih =>
    simp only [importRows, List.map_cons, List.filter_cons]
    by_cases hw : resolveWord entry = []
    · rw [if_pos hw]
      have hdec : decide (resolveWord entry ≠ []) = false := by simp [hw]
      rw [hdec]
      simpa using ih n
    · rw [if_neg hw]
      have hdec : decide (resolveWord entry ≠ []) = true := by simp [hw]
      rw [hdec]
      simp only [List.map_cons, if_true]
      rw [importedCard_word]
      exact congrArg _ (ih (n + 1))

/-- Every imported card starts with the default scheduling state. -/
theorem importRows_defaults (rows : List Row) (idGen : Nat → Str) (n : Nat)
    (now : ℚ) (ac : Bool) (lk : Str → DictResult) :
    ∀ c ∈ importRows rows idGen n now ac lk,
      c.ease = 2.5 ∧ c.interval = 0 ∧ c.due = some now := by
  induction rows generalizing n with
  | nil => intro c hc; simp [importRows] at hc
  | cons entry rest ih =>
    intro c hc
    simp only [importRows] at hc
    by_cases hw : resolveWord entry = []
    · rw [if_pos hw] at hc
      exact ih n c hc
    · rw [if_neg hw] at hc
      rcases List.mem_cons.mp hc with rfl | hc
      · exact importedCard_defaults entry (idGen n) now ac lk
      · exact ih (n + 1) c hc

/-- Every imported card's id comes from the id supply, at an index at
least the starting one. -/
theorem importRows_id_ge (rows : List Row) (idGen : Nat → Str) (n : Nat)
    (now : ℚ) (ac : Bool) (lk : Str → DictResult) :
    ∀ c ∈ importRows rows idGen n now ac lk, ∃ j, n ≤ j ∧ c.id = idGen j := by
  induction rows generalizing n with
  | nil => intro c hc; simp [importRows] at hc
  | cons entry rest ih =>
    intro c hc
    simp only [importRows] at hc
    by_cases hw : resolveWord entry = []
    · rw [if_pos hw] at hc
      exact ih n c hc
    · rw [if_neg hw] at hc
      rcases List.mem_cons.mp hc with rfl | hc
      · exact ⟨n, le_rfl, importedCard_id entry (idGen n) now ac lk⟩
      · obtain ⟨j, hj, hid⟩ := ih (n + 1) c hc
        exact ⟨j, by omega, hid⟩

/-- Distinct ids from an injective id supply. -/
theorem importRows_id_nodup (rows : List Row) (idGen : Nat → Str) (n : Nat)
    (now : ℚ) (ac : Bool) (lk : Str → DictResult)
    (hinj : Function.Injective idGen) :
    ((importRows rows idGen n now ac lk).map Card.id).Nodup := by
  induction rows generalizing n with
  | nil => simp [importRows]
  | cons entry rest ih =>
    simp only [importRows]
    by_cases hw : resolveWord entry = []
    · rw [if_pos hw]
      exact ih n
    · rw [if_neg hw]
      simp only [List.map_cons]
      refine List.nodup_cons.mpr ⟨?_, ih (n + 1)⟩
      rw [importedCard_id]
      intro hmem
      obtain ⟨c, hc, hcid⟩ := List.mem_map.mp hmem
      obtain ⟨j, hj, hid⟩ := importRows_id_ge rest idGen (n + 1) now ac lk c hc
      rw [hid] at hcid
      have := hinj hcid
      omega

/-- C6: the parser resolves `word` through the prioritized key fallback
(`word` first), skips exactly the rows whose resolved word trims to
empty, gives every produced card the id drawn from the fresh id supply
(distinct ids when the supply is injective) with `ease = 2.5`,
`interval = 0`, `due = now`; importing the rows `word=cat` and
`word=` (empty) yields exactly the one card `cat`. -/
theorem importRows_parser_spec (rows : List Row) (idGen : Nat → Str)
    (now : ℚ) (ac : Bool) (lk : Str → DictResult) :
    (∀ entry : Row, rowGet entry (str "word") ≠ [] →
      resolveWord entry = trimStr (rowGet entry (str "word"))) ∧
    ((importRows rows idGen 0 now ac lk).map Card.word
      = (rows.map resolveWord).filter (fun w => decide (w ≠ []))) ∧
    (∀ c ∈ importRows rows idGen 0 now ac lk,
      c.ease = 2.5 ∧ c.interval = 0 ∧ c.due = some now) ∧
    (Function.Injective idGen →
      ((importRows rows idGen 0 now ac lk).map Card.id).Nodup) ∧
    ((importRows [[(str "word", str "cat")], [(str "word", [])]]
        idGen 0 now ac lk).map Card.word = [str "cat"]) := by
  refine ⟨?_, importRows_words rows idGen 0 now ac lk,
    importRows_defaults rows idGen 0 now ac lk,
    fun hinj => importRows_id_nodup rows idGen 0 now ac lk hinj, ?_⟩
  · intro entry h
    unfold resolveWord
    rw [jsOr_of_ne _ _ h]
  · cases ac <;> rfl

theorem splitOnChar_ne_nil (sep : Char) (s : Str) : splitOnChar sep s ≠ [] := by
  induction s with
  | nil => simp [splitOnChar]
  | cons c cs ih =>
    simp only [splitOnChar]
    cases h : splitOnChar sep cs with
    | nil => simp
    | cons hd tl => by_cases hcs : c = sep <;> simp [hcs]

theorem splitOnChar_of_not_mem (sep : Char) (s : Str) (h : sep ∉ s) :
    splitOnChar sep s = [s] := by
  induction s with
  | nil => rfl
  | cons c cs ih =>
    have hc : c ≠ sep := fun hh => h (hh ▸ List.mem_cons_self c cs)
    have hcs : sep ∉ cs := fun hh => h (List.mem_cons_of_mem c hh)
    simp only [splitOnChar]
    rw [ih hcs]
    simp [hc]

theorem splitOnChar_append (sep : Char) (s t : Str) (h : sep ∉ s) :
    splitOnChar sep (s ++ sep :: t) = s :: splitOnChar sep t := by
  induction s with
  | nil =>
    simp only [List.nil_append, splitOnChar]
    cases hsp : splitOnChar sep t with
    | nil => exact absurd hsp (splitOnChar_ne_nil sep t)
    | cons hd tl => simp
  | cons c cs ih =>
    have hc : c ≠ sep := fun hh => h (hh ▸ List.mem_cons_self c cs)
    have hcs : sep ∉ cs := fun hh => h (List.mem_cons_of_mem c hh)
    simp only [List.cons_append, splitOnChar, List.append_eq]
    rw [ih hcs]
    simp [hc]

/-- Splitting undoes joining when no chunk contains the separator. -/
theorem splitOnChar_joinSep (sep : Char) (parts : List Str) (hne : parts ≠ [])
    (h : ∀ p ∈ parts, sep ∉ p) :
    splitOnChar sep (joinSep sep parts) = parts := by
  induction parts with
  | nil => exact absurd rfl hne
  | cons p ps ih =>
    cases ps with
    | nil =>
      simp only [joinSep]
      exact splitOnChar_of_not_mem sep p (h p (List.mem_cons_self p []))
    | cons q qs =>
      simp only [joinSep]
      rw [splitOnChar_append sep p _ (h p (List.mem_cons_self p (q :: qs)))]
      rw [ih (by simp) (fun x hx => h x (List.mem_cons_of_mem p hx))]

/-- A character of a join is the separator or a character of some chunk. -/
theorem mem_joinSep (sep : Char) (parts : List Str) (c : Char)
    (hc : c ∈ joinSep sep parts) : c = sep ∨ ∃ p ∈ parts, c ∈ p := by
  induction parts with
  | nil => simp [joinSep] at hc
  | cons p ps ih =>
    cases ps with
    | nil =>
      simp only [joinSep] at hc
      exact Or.inr ⟨p, List.mem_cons_self p [], hc⟩
    | cons q qs =>
      simp only [joinSep] at hc
      rcases List.mem_append.mp hc with h1 | h2
      · exact Or.inr ⟨p, List.mem_cons_self p (q :: qs), h1⟩
      · rcases List.mem_cons.mp h2 with rfl | h3
        · exact Or.inl rfl
        · rcases ih h3 with h4 | ⟨x, hx, hcx⟩
          · exact Or.inl h4
          · exact Or.inr ⟨x, List.mem_cons_of_mem p hx, hcx⟩

theorem joinSep_ne_nil (sep : Char) (p : Str) (ps : List Str) (hp : p ≠ []) :
    joinSep sep (p :: ps) ≠ [] := by
  cases ps with
  | nil => exact hp
  | cons q qs => simp [joinSep]

theorem head?_joinSep (sep : Char) (p : Str) (ps : List Str) (h : p ≠ []) :
    (joinSep sep (p :: ps)).head? = p.head? := by
  cases ps with
  | nil => rfl
  | cons q qs =>
    simp only [joinSep]
    exact List.head?_append_of_ne_nil p h

/-- "This position holds no whitespace character": the property a string's
first and last characters must have for `trim` to leave it alone. -/
def noWS : Option Char → Prop
  | some c => c.isWhitespace = false
  | none => True

instance noWS_decidable : (o : Option Char) → Decidable (noWS o)
  | none => .isTrue trivial
  | some c => inferInstanceAs (Decidable (c.isWhitespace = false))

/-- The last character of a join by a non-whitespace separator is never
whitespace, provided no chunk ends in whitespace. -/
theorem noWS_getLast?_joinSep_sep (sep : Char) (hsep : sep.isWhitespace = false)
    (ps : List Str) (h : ∀ p ∈ ps, noWS p.getLast?) :
    noWS (joinSep sep ps).getLast? := by
  induction ps with
  | nil => trivial
  | cons p qs ih =>
    cases qs with
    | nil => exact h p (List.mem_cons_self p [])
    | cons q qs' =>
      simp only [joinSep]
      rw [List.getLast?_append_cons]
      cases hJ : joinSep sep (q :: qs') with
      | nil => exact hsep
      | cons j js =>
        rw [List.getLast?_cons_cons, ← hJ]
        exact ih (fun x hx => h x (List.mem_cons_of_mem p hx))

/-- The last character of a join of nonempty chunks is the last character
of the last chunk, and so is not whitespace when no chunk ends in
whitespace — for any separator, including `'\n'`. -/
theorem noWS_getLast?_joinSep_strong (sep : Char) (ps : List Str)
    (h : ∀ p ∈ ps, p ≠ [] ∧ noWS p.getLast?) :
    noWS (joinSep sep ps).getLast? := by
  induction ps with
  | nil => trivial
  | cons p qs ih =>
    cases qs with
    | nil => exact (h p (List.mem_cons_self p [])).2
    | cons q qs' =>
      simp only [joinSep]
      rw [List.getLast?_append_cons]
      cases hJ : joinSep sep (q :: qs') with
      | nil =>
        exact absurd hJ
          (joinSep_ne_nil sep q qs' (h q (List.mem_cons_of_mem p (List.mem_cons_self q qs'))).1)
      | cons j js =>
        rw [List.getLast?_cons_cons, ← hJ]
        exact ih (fun x hx => h x (List.mem_cons_of_mem p hx))

theorem dropWhile_eq_self_of_noWS (s : Str) (h : noWS s.head?) :
    s.dropWhile Char.isWhitespace = s := by
  cases s with
  | nil => rfl
  | cons c cs =>
    have hc : Char.isWhitespace c = false := h
    rw [List.dropWhile_cons, hc]
    simp

theorem trimStr_eq_self (s : Str) (h1 : noWS s.head?) (h2 : noWS s.getLast?) :
    trimStr s = s := by
  unfold trimStr
  rw [dropWhile_eq_self_of_noWS s h1]
  rw [dropWhile_eq_self_of_noWS s.reverse (by rw [List.head?_reverse]; exact h2)]
  exact List.reverse_reverse s

theorem mem_of_getLast?_eq (l : Str) (a : Char) (h : l.getLast? = some a) :
    a ∈ l := by
  obtain ⟨hne, heq⟩ := List.mem_getLast?_eq_getLast (x := a) h
  exact heq ▸ List.getLast_mem hne

theorem stripCR_eq_self (l : Str) (h : '\r' ∉ l) : stripCR l = l := by
  unfold stripCR
  split
  · next heq => exact absurd (mem_of_getLast?_eq l '\r' heq) h
  · rfl

/-- A CSV cell the exporter can round-trip: no separator characters and
no whitespace at either end (so the importer's `trim` is the identity). -/
def cleanCell (s : Str) : Prop :=
  noWS s.head? ∧ noWS s.getLast? ∧ ',' ∉ s ∧ '\n' ∉ s ∧ '\r' ∉ s

instance cleanCell_decidable (s : Str) : Decidable (cleanCell s) := by
  unfold cleanCell
  infer_instance

theorem cleanCell_nil : cleanCell ([] : Str) :=
  ⟨trivial, trivial, by simp, by simp, by simp⟩

theorem cleanCell_trim (s : Str) (h : cleanCell s) : trimStr s = s :=
  trimStr_eq_self s h.1 h.2.1

/-- A card whose content fields the CSV export can round-trip. -/
def cleanCard (c : Card) : Prop :=
  c.word ≠ [] ∧ cleanCell c.word ∧ cleanCell c.ipa ∧ cleanCell c.audio ∧
  cleanCell c.meaning ∧ cleanCell c.«example»

instance cleanCard_decidable (c : Card) : Decidable (cleanCard c) := by
  unfold cleanCard
  infer_instance

/-- The `due` cell of the export: `c.due ?? ''` under `showNum`. -/
def dueCell (showNum : ℚ → Str) (c : Card) : Str := (c.due.map showNum).getD []

/-- The cells of a card's export line, in header order. -/
def cellList (showNum : ℚ → Str) (c : Card) : List Str :=
  [c.word, c.ipa, c.audio, c.meaning, c.«example»,
   showNum c.ease, showNum c.interval, dueCell showNum c]

theorem exportCSV_eq (showNum : ℚ → Str) (cards : List Card) :
    exportCSV showNum cards =
      joinSep '\n' (joinSep ',' csvHeaders ::
        cards.map fun c => joinSep ',' (cellList showNum c)) := rfl

/-- The raw row `parseCSV` rebuilds from a clean card's export line. -/
def cardRow (showNum : ℚ → Str) (c : Card) : Row :=
  [(str "word", c.word), (str "ipa", c.ipa), (str "audio", c.audio),
   (str "meaning", c.meaning), (str "example", c.«example»),
   (str "ease", showNum c.ease), (str "interval", showNum c.interval),
   (str "due", dueCell showNum c)]

theorem trimStr_dueCell (showNum : ℚ → Str) (c : Card)
    (hnum : ∀ q, cleanCell (showNum q)) :
    trimStr (dueCell showNum c) = dueCell showNum c := by
  unfold dueCell
  cases hdue : c.due with
  | none => rfl
  | some q => exact cleanCell_trim _ (hnum q)

theorem cellList_clean (showNum : ℚ → Str) (c : Card) (hc : cleanCard c)
    (hnum : ∀ q, cleanCell (showNum q)) :
    ∀ s ∈ cellList showNum c, cleanCell s := by
  obtain ⟨-, h1, h2, h3, h4, h5⟩ := hc
  intro s hs
  simp only [cellList, List.mem_cons, List.not_mem_nil, or_false] at hs
  rcases hs with rfl | rfl | rfl | rfl | rfl | rfl | rfl | rfl
  · exact h1
  · exact h2
  · exact h3
  · exact h4
  · exact h5
  · exact hnum _
  · exact hnum _
  · unfold dueCell
    cases hdue : c.due with
    | none => exact cleanCell_nil
    | some q => exact hnum q

theorem parseCSV_eq_of_splitLines (text header : Str) (rest : List Str)
    (h : splitLines (trimStr text) = header :: rest) :
    parseCSV text = rest.map (fun line =>
      ((splitOnChar ',' header).map trimStr).enum.map fun p =>
        (p.2, trimStr ((splitOnChar ',' line).getD p.1 []))) := by
  unfold parseCSV
  rw [h]

/-- Re-parsing one clean export line rebuilds the card's raw row. -/
theorem parseLine_card (showNum : ℚ → Str) (c : Card) (hc : cleanCard c)
    (hnum : ∀ q, cleanCell (showNum q)) :
    (csvHeaders.enum.map fun p =>
        (p.2, trimStr ((splitOnChar ',' (joinSep ',' (cellList showNum c))).getD p.1 [])))
      = cardRow showNum c := by
  rw [splitOnChar_joinSep ',' _ (by simp [cellList])
    (fun s hs => (cellList_clean showNum c hc hnum s hs).2.2.1)]
  show [(str "word", trimStr c.word), (str "ipa", trimStr c.ipa),
      (str "audio", trimStr c.audio), (str "meaning", trimStr c.meaning),
      (str "example", trimStr c.«example»),
      (str "ease", trimStr (showNum c.ease)),
      (str "interval", trimStr (showNum c.interval)),
      (str "due", trimStr (dueCell showNum c))] = cardRow showNum c
  obtain ⟨-, h1, h2, h3, h4, h5⟩ := hc
  unfold cardRow
  rw [cleanCell_trim _ h1, cleanCell_trim _ h2, cleanCell_trim _ h3,
    cleanCell_trim _ h4, cleanCell_trim _ h5, cleanCell_trim _ (hnum c.ease),
    cleanCell_trim _ (hnum c.interval), trimStr_dueCell showNum c hnum]

/-- Re-parsing the whole export rebuilds the raw rows of the cards. -/
theorem parseCSV_exportCSV (showNum : ℚ → Str) (cards : List Card)
    (hcards : ∀ c ∈ cards, cleanCard c) (hnum : ∀ q, cleanCell (showNum q)) :
    parseCSV (exportCSV showNum cards) = cards.map (cardRow showNum) := by
  have hcells : ∀ c ∈ cards, ∀ s ∈ cellList showNum c, cleanCell s :=
    fun c hc => cellList_clean showNum c (hcards c hc) hnum
  have hline_ne : ∀ l ∈ cards.map (fun c => joinSep ',' (cellList showNum c)),
      l ≠ [] := by
    intro l hl
    obtain ⟨c, hc, rfl⟩ := List.mem_map.mp hl
    exact joinSep_ne_nil ',' c.word _ (hcards c hc).1
  have hline_last : ∀ l ∈ cards.map (fun c => joinSep ',' (cellList showNum c)),
      noWS l.getLast? := by
    intro l hl
    obtain ⟨c, hc, rfl⟩ := List.mem_map.mp hl
    exact noWS_getLast?_joinSep_sep ',' (by decide) _
      (fun s hs => (hcells c hc s hs).2.1)
  have hline_nl : ∀ l ∈ cards.map (fun c => joinSep ',' (cellList showNum c)),
      '\n' ∉ l := by
    intro l hl hmem
    obtain ⟨c, hc, rfl⟩ := List.mem_map.mp hl
    rcases mem_joinSep ',' _ '\n' hmem with h1 | ⟨p, hp, hcp⟩
    · exact absurd h1 (by decide)
    · exact absurd hcp (hcells c hc p hp).2.2.2.1
  have hline_cr : ∀ l ∈ cards.map (fun c => joinSep ',' (cellList showNum c)),
      '\r' ∉ l := by
    intro l hl hmem
    obtain ⟨c, hc, rfl⟩ := List.mem_map.mp hl
    rcases mem_joinSep ',' _ '\r' hmem with h1 | ⟨p, hp, hcp⟩
    · exact absurd h1 (by decide)
    · exact absurd hcp (hcells c hc p hp).2.2.2.2
  rw [exportCSV_eq]
  have htrim : trimStr (joinSep '\n' (joinSep ',' csvHeaders ::
      cards.map fun c => joinSep ',' (cellList showNum c))) =
      joinSep '\n' (joinSep ',' csvHeaders ::
        cards.map fun c => joinSep ',' (cellList showNum c)) := by
    apply trimStr_eq_self
    · rw [head?_joinSep '\n' _ _ (by decide)]
      decide
    · apply noWS_getLast?_joinSep_strong
      intro p hp
      rcases List.mem_cons.mp hp with rfl | hp
      · exact ⟨by decide, by decide⟩
      · exact ⟨hline_ne p hp, hline_last p hp⟩
  have hsplit : splitLines (trimStr (joinSep '\n' (joinSep ',' csvHeaders ::
      cards.map fun c => joinSep ',' (cellList showNum c)))) =
      joinSep ',' csvHeaders ::
        cards.map fun c => joinSep ',' (cellList showNum c) := by
    rw [htrim]
    unfold splitLines
    rw [splitOnChar_joinSep '\n' _ (by simp)]
    · rw [List.map_cons]
      rw [stripCR_eq_self _ (by decide)]
      rw [List.map_congr_left (fun l hl => stripCR_eq_self l (hline_cr l hl)),
        List.map_id']
    · intro p hp
      rcases List.mem_cons.mp hp with rfl | hp
      · decide
      · exact hline_nl p hp
  rw [parseCSV_eq_of_splitLines _ _ _ hsplit]
  have hheaders : (splitOnChar ',' (joinSep ',' csvHeaders)).map trimStr
      = csvHeaders := by decide
  rw [hheaders, List.map_map]
  exact List.map_congr_left
    (fun c hc => parseLine_card showNum c (hcards c hc) hnum)

theorem rowGet_cardRow_word (showNum : ℚ → Str) (c : Card) :
    rowGet (cardRow showNum c) (str "word") = c.word := rfl

/-- The resolved word of a rebuilt row is the original word. -/
theorem resolveWord_cardRow (showNum : ℚ → Str) (c : Card)
    (hc : cleanCell c.word) :
    resolveWord (cardRow showNum c) = c.word := by
  show trimStr (jsOr c.word []) = c.word
  rw [jsOr_nil_right]
  exact cleanCell_trim _ hc

/-- The card the import loop rebuilds from a clean card's raw row. -/
theorem baseCard_cardRow (showNum : ℚ → Str) (c : Card) (i : Str) (now : ℚ)
    (hword : cleanCell c.word) :
    baseCard (cardRow showNum c) i now =
      { id := i, word := c.word, ipa := c.ipa, audio := c.audio,
        meaning := c.meaning, «example» := c.«example»,
        ease := 2.5, interval := 0, due := some now } := by
  unfold baseCard
  congr 1
  · exact resolveWord_cardRow showNum c hword
  · exact jsOr_nil_right c.ipa
  · exact jsOr_nil_right c.audio
  · exact jsOr_nil_right c.meaning
  · exact jsOr_nil_right c.«example»

/-- Importing the rebuilt rows restores the content fields of the cards. -/
theorem importRows_cardRows (showNum : ℚ → Str) (cards : List Card)
    (idGen : Nat → Str) (n : Nat) (now : ℚ) (lk : Str → DictResult)
    (hcards : ∀ c ∈ cards, cleanCard c) :
    (importRows (cards.map (cardRow showNum)) idGen n now false lk).map
        (fun c => (c.word, c.ipa, c.audio, c.meaning, c.«example»))
      = cards.map (fun c => (c.word, c.ipa, c.audio, c.meaning, c.«example»)) := by
  induction cards generalizing n with
  | nil => rfl
  | cons c rest ih =>
    obtain ⟨hw, hcw, -, -, -, -⟩ := hcards c (List.mem_cons_self c rest)
    simp only [List.map_cons, importRows]
    rw [resolveWord_cardRow showNum c hcw, if_neg hw]
    simp only [List.map_cons]
    rw [importedCard_false, baseCard_cardRow showNum c (idGen n) now hcw]
    exact congrArg _ (ih (n + 1) (fun x hx => hcards x (List.mem_cons_of_mem c hx)))

/-- A card whose `meaning` contains a comma, breaking the CSV round trip. -/
def commaCard : Card :=
  { id := str "x", word := str "dog", ipa := [], audio := [],
    meaning := str "a,b", «example» := [], ease := 2.5, interval := 0,
    due := some 0 }

/-- C7 counterexample: for the one-card collection whose `meaning` is
`a,b`, re-parsing the CSV export does not reconstruct the content fields —
the unquoted comma shifts the columns and the reconstructed `meaning`
is `a`.  (`showNum` renders every number as `0`; the scheduling columns
are ignored by the importer anyway.) -/
theorem csv_roundtrip_counterexample :
    (importRows (parseCSV (exportCSV (fun _ => str "0") [commaCard]))
        (fun _ => str "i") 0 0 false (fun _ => ⟨[], [], []⟩)).map Card.meaning
      ≠ [commaCard].map Card.meaning := by decide

/-- C7 (amended): for every collection whose cards have a nonempty `word`
and comma-, newline-, CR-free content fields with no leading or trailing
whitespace, and any number rendering with the same properties, re-parsing
the CSV export (with auto-complete off) reconstructs cards whose `word`,
`ipa`, `audio`, `meaning` and `example` are identical to the originals,
with `ease`, `interval`, `due` re-initialized to the import defaults. -/
theorem csv_roundtrip_amended (cards : List Card) (showNum : ℚ → Str)
    (idGen : Nat → Str) (now : ℚ) (lk : Str → DictResult)
    (hcards : ∀ c ∈ cards, cleanCard c) (hnum : ∀ q, cleanCell (showNum q)) :
    ((importRows (parseCSV (exportCSV showNum cards)) idGen 0 now false lk).map
        (fun c => (c.word, c.ipa, c.audio, c.meaning, c.«example»))
      = cards.map (fun c => (c.word, c.ipa, c.audio, c.meaning, c.«example»))) ∧
    (∀ c ∈ importRows (parseCSV (exportCSV showNum cards)) idGen 0 now false lk,
      c.ease = 2.5 ∧ c.interval = 0 ∧ c.due = some now) := by
  rw [parseCSV_exportCSV showNum cards hcards hnum]
  exact ⟨importRows_cardRows showNum cards idGen 0 now lk hcards,
    importRows_defaults _ idGen 0 now false lk⟩

/-- C7 witness: the amended round trip at a concrete one-card collection. -/
theorem csv_roundtrip_amended_witness :
    ((importRows (parseCSV (exportCSV (fun _ => str "0") [sampleCard]))
        (fun _ => str "i") 0 0 false (fun _ => ⟨[], [], []⟩)).map
        (fun c => (c.word, c.ipa, c.audio, c.meaning, c.«example»))
      = [sampleCard].map (fun c => (c.word, c.ipa, c.audio, c.meaning, c.«example»))) ∧
    (∀ c ∈ importRows (parseCSV (exportCSV (fun _ => str "0") [sampleCard]))
        (fun _ => str "i") 0 0 false (fun _ => ⟨[], [], []⟩),
      c.ease = 2.5 ∧ c.interval = 0 ∧ c.due = some 0) :=
  csv_roundtrip_amended [sampleCard] (fun _ => str "0") (fun _ => str "i") 0
    (fun _ => ⟨[], [], []⟩)
    (fun c hc => by
      rw [List.mem_singleton] at hc
      subst hc
      decide)
    (fun _ => (by decide : cleanCell (str "0")))

end VocabCards
